import Mathlib

/-!
Verification of the neural-network core (`neural_net.cpp`): activation
functions, `Layer` forward/backward/update operations and the `Network`
orchestration, modelled over the reals with vectors as `List ℝ` and
matrices as `List (List ℝ)`.  Mutating C++ methods become state
transformers on the `Layer` / `Network` structures.
-/

open scoped BigOperators

namespace NeuralNet

/-- The `SigmoidActivation::sigmoid`: `1 / (1 + exp x)` (note the sign convention:
`exp x`, not `exp (-x)`). -/
noncomputable def sigmoid (x : ℝ) : ℝ := 1 / (1 + Real.exp x)

/-- The `SwishActivation::swish`: `x * sigmoid x`. -/
noncomputable def swish (x : ℝ) : ℝ := x * sigmoid x

/-- The `SwishActivation::swishGradient`. -/
noncomputable def swishGradient (x : ℝ) : ℝ := swish x + sigmoid x * (1 - swish x)

/-- The `Layer::ActivationType`. -/
inductive ActivationType where
  | RELU
  | SIGMOID
  | SWISH
  | SOFTMAX
deriving Inhabited, DecidableEq

/-- The `Activation::activation` for each variant, translated from the
`std::for_each` loops (Softmax: exponentiate elementwise, sum with
`std::accumulate` from 0, divide each element by the sum). -/
noncomputable def actActivation : ActivationType → List ℝ → List ℝ
  | .RELU, input => input.map (fun x => if x > 0 then x else 0)
  | .SIGMOID, input => input.map (fun x => sigmoid x)
  | .SWISH, input => input.map (fun x => swish x)
  | .SOFTMAX, input =>
      let e := input.map Real.exp
      let s := e.foldl (· + ·) 0
      e.map (fun x => x / s)

/-- The `Activation::gradient` for each variant (Softmax's is the dummy
pass-through). -/
noncomputable def actGradient : ActivationType → List ℝ → List ℝ
  | .RELU, input => input.map (fun x => if x > 0 then (1 : ℝ) else 0)
  | .SIGMOID, input => input.map (fun x => sigmoid x / (1 - sigmoid x))
  | .SWISH, input => input.map (fun x => swishGradient x)
  | .SOFTMAX, input => input

/-- The `Layer<S>` struct.  `_inSize` is the augmented input size
(`inSize + 1` in the constructor); `_activation` keeps the variant tag of
the attached activation object. -/
structure Layer where
  _inSize : ℕ
  _outSize : ℕ
  _sampleCount : ℕ
  _w : List (List ℝ)
  _w_grad : List (List ℝ)
  _input : List ℝ
  _u : List ℝ
  _output : List ℝ
  _activation : ActivationType
deriving Inhabited

/-- The `Layer::forward`: copies the input, appends the constant 1, recomputes
`_u[j] = Σ_i _input[i] * _w[i][j]` (the zero-fill followed by the double
accumulation loop over `i < _inSize`, `j < _outSize`), applies the
activation and stores the result as `_output`.  Returns the output
together with the updated layer. -/
noncomputable def Layer.forward (l : Layer) (input : List ℝ) : List ℝ × Layer :=
  let inp := input ++ [(1 : ℝ)]
  let u := (List.range l._outSize).map (fun j =>
    ((List.range l._inSize).map
      (fun i => inp.getD i 0 * ((l._w.getD i []).getD j 0))).sum)
  let out := actActivation l._activation u
  (out, { l with _input := inp, _u := u, _output := out })

/-- The `Layer::calcDelta`: `delta[j] = Σ_{k < nextW[j].size} nextDelta[k]
* nextW[j][k] * grad[j]` with `grad = activation->gradient(_u)`.  The
method writes no member field, so the layer in the returned pair is the
argument itself. -/
noncomputable def Layer.calcDelta (l : Layer) (nextDelta : List ℝ)
    (nextW : List (List ℝ)) : List ℝ × Layer :=
  let grad := actGradient l._activation l._u
  let delta := (List.range l._outSize).map (fun j =>
    ((List.range (nextW.getD j []).length).map
      (fun k => nextDelta.getD k 0 * ((nextW.getD j []).getD k 0) * grad.getD j 0)).sum)
  (delta, l)

/-- The `Layer::updateGrad`: `_w_grad[i][j] += _input[i] * delta[j]` for every
`i < _inSize`, `j < _outSize`, then `_sampleCount++`. -/
def Layer.updateGrad (l : Layer) (delta : List ℝ) : Layer :=
  { l with
    _w_grad := (List.range l._inSize).map (fun i =>
      (List.range l._outSize).map (fun j =>
        (l._w_grad.getD i []).getD j 0 + l._input.getD i 0 * delta.getD j 0)),
    _sampleCount := l._sampleCount + 1 }

/-- The `Layer::updateParam`: early-returns when `_sampleCount == 0`;
otherwise `_w[i][j] -= _w_grad[i][j] * learningRate / _sampleCount`,
zeroes `_w_grad[i][j]` and resets `_sampleCount` to 0. -/
noncomputable def Layer.updateParam (l : Layer) (learningRate : ℝ) : Layer :=
  if l._sampleCount = 0 then l
  else
    { l with
      _w := (List.range l._inSize).map (fun i =>
        (List.range l._outSize).map (fun j =>
          (l._w.getD i []).getD j 0 -
            (l._w_grad.getD i []).getD j 0 * learningRate / (l._sampleCount : ℝ))),
      _w_grad := (List.range l._inSize).map (fun _ =>
        (List.range l._outSize).map (fun _ => (0 : ℝ))),
      _sampleCount := 0 }

/-- The `Network<S>` class: an ordered stack of layers (the `_verbose`
flag only guards `std::cout` logging). -/
structure Network where
  _verbose : Bool
  _layers : List Layer
deriving Inhabited

/-- The `Network::addLayer`. -/
def Network.addLayer (n : Network) (layer : Layer) : Network :=
  { n with _layers := n._layers ++ [layer] }

/-- The `Network::forward`: threads the input buffer through each layer's
`forward` in order, each layer retaining its own forward state. -/
noncomputable def Network.forward (n : Network) (input : List ℝ) : List ℝ × Network :=
  let r := n._layers.foldl
    (fun (acc : List ℝ × List Layer) layer =>
      ((layer.forward acc.1).1, acc.2 ++ [(layer.forward acc.1).2]))
    (input, [])
  (r.1, { n with _layers := r.2 })

/-- The output-layer delta of `Network::backward`: a zero-initialised
vector of `target.size()` entries, overwritten with `y[i] - target[i]`
for `i < y.size()`. -/
def outputDelta (y target : List ℝ) : List ℝ :=
  (List.range target.length).map (fun i =>
    if i < y.length then y.getD i 0 - target.getD i 0 else 0)

/-- The descending loop of `Network::backward` (`for l = size-2; l >= 0;
l--`): with `fuel = l + 1` it processes index `l`, replacing layer `l` by
`updateGrad` on the `calcDelta` of the incoming delta against layer
`l+1`'s weights, and recurses with the new delta. -/
noncomputable def backwardAux (layers : List Layer) (delta : List ℝ) :
    ℕ → List Layer × List ℝ
  | 0 => (layers, delta)
  | k + 1 =>
      let li := layers.getD k default
      let nextW := (layers.getD (k + 1) default)._w
      let d := (li.calcDelta delta nextW).1
      backwardAux (layers.set k (li.updateGrad d)) d k

/-- The `Network::backward`: computes the output delta `y - target` on the
last layer, calls its `updateGrad`, then walks the remaining layers from
second-to-last down to first via `backwardAux`. -/
noncomputable def Network.backward (n : Network) (target : List ℝ) : Network :=
  let L := n._layers.length
  let lastLayer := n._layers.getD (L - 1) default
  let delta := outputDelta lastLayer._output target
  let layers1 := n._layers.set (L - 1) (lastLayer.updateGrad delta)
  { n with _layers := (backwardAux layers1 delta (L - 1)).1 }

/-- The `Network::calcLoss`: `loss -= target[i] * log(output[i])` over
`i < target.size()`, starting from 0, reading the last layer's
`_output`. -/
noncomputable def Network.calcLoss (n : Network) (target : List ℝ) : ℝ :=
  let y := (n._layers.getD (n._layers.length - 1) default)._output
  (List.range target.length).foldl
    (fun loss i => loss - target.getD i 0 * Real.log (y.getD i 0)) 0

/-- The `Network::updateParam`: forwards the learning rate to every layer. -/
noncomputable def Network.updateParam (n : Network) (learningRate : ℝ) : Network :=
  { n with _layers := n._layers.map (fun layer => layer.updateParam learningRate) }

/-- Reading a `List.range`-built row at an in-range index yields the
generating function's value. -/
lemma getD_range_map {α : Type} (n : ℕ) (f : ℕ → α) (i : ℕ) (d : α) (hi : i < n) :
    ((List.range n).map f).getD i d = f i := by
  rw [List.getD_eq_getElem?_getD, List.getElem?_map, List.getElem?_range hi]
  rfl

/-- A list sum over `List.range` is the matching `Finset.range` sum. -/
lemma list_sum_range (f : ℕ → ℝ) : ∀ n : ℕ,
    ((List.range n).map f).sum = ∑ i in Finset.range n, f i := by
  intro n
  induction n with
  | zero => simp
  | succ k ih =>
      rw [List.range_succ, List.map_append, List.sum_append, Finset.sum_range_succ, ih]
      simp

/-- Folding subtraction of `f` over `List.range m` subtracts the range sum. -/
lemma foldl_sub_eq (f : ℕ → ℝ) : ∀ (m : ℕ) (a : ℝ),
    (List.range m).foldl (fun acc i => acc - f i) a = a - ∑ i in Finset.range m, f i := by
  intro m
  induction m with
  | zero => simp
  | succ k ih =>
      intro a
      rw [List.range_succ, List.foldl_append, ih, Finset.sum_range_succ]
      simp
      ring

/-- Dividing every element of a list by a constant divides its sum. -/
lemma sum_map_div (l : List ℝ) (c : ℝ) : (l.map (fun x => x / c)).sum = l.sum / c := by
  induction l with
  | nil => simp
  | cons a t ih => simp [ih, add_div]

/-- The sum of exponentials of a nonempty list is positive. -/
lemma exp_sum_pos (input : List ℝ) (hne : input ≠ []) : 0 < (input.map Real.exp).sum := by
  refine List.sum_pos _ (fun x hx => ?_) (by simpa using hne)
  obtain ⟨y, _, rfl⟩ := List.mem_map.mp hx
  exact Real.exp_pos y

/-- In a list of at least two positive elements, each is below the sum. -/
lemma mem_lt_sum_of_two (l : List ℝ) (hpos : ∀ x ∈ l, 0 < x) (hlen : 2 ≤ l.length) :
    ∀ a ∈ l, a < l.sum := by
  intro a ha
  obtain ⟨s, t, rfl⟩ := List.append_of_mem ha
  rw [List.sum_append, List.sum_cons]
  have ht : 0 ≤ t.sum :=
    List.sum_nonneg (fun x hx => le_of_lt (hpos x (by simp [hx])))
  rcases s with _ | ⟨b, s2⟩
  · have htne : t ≠ [] := by
      intro h
      subst h
      simp at hlen
    have htpos : 0 < t.sum :=
      List.sum_pos t (fun x hx => hpos x (by simp [hx])) htne
    simp
    linarith
  · have hspos : 0 < (b :: s2).sum :=
      List.sum_pos _ (fun x hx => hpos x (by simp at hx ⊢; tauto)) (by simp)
    linarith

/-- Claim C10: `Network::forward` on a network with no layers returns its
input unchanged — the fold over an empty layer stack is the identity. -/
theorem network_forward_empty_id (v : Bool) (input : List ℝ) :
    (Network.forward { _verbose := v, _layers := [] } input).1 = input := rfl

/-- Claim C5: the Sigmoid gradient is, elementwise,
`sigmoid x / (1 - sigmoid x)` with `sigmoid x = 1 / (1 + exp x)`, and at
`x = 0` it disagrees with the textbook `sigmoid x * (1 - sigmoid x)`. -/
theorem sigmoid_gradient_spec (input : List ℝ) :
    actGradient ActivationType.SIGMOID input =
      input.map (fun x => (1 / (1 + Real.exp x)) / (1 - 1 / (1 + Real.exp x))) ∧
    actGradient ActivationType.SIGMOID [0] ≠ [sigmoid 0 * (1 - sigmoid 0)] := by
  refine ⟨by simp [actGradient, sigmoid], ?_⟩
  have h0 : sigmoid 0 = 1 / 2 := by
    simp [sigmoid, Real.exp_zero]
    norm_num
  simp [actGradient, h0]
  norm_num

/-- Claim C4: `Layer::updateParam` is a no-op when `_sampleCount = 0`;
with `_sampleCount > 0` it subtracts `learningRate * accumulator / count`
from every weight, zeroes the accumulator and resets the count. -/
theorem updateParam_spec (l : Layer) (lr : ℝ) :
    (l._sampleCount = 0 → l.updateParam lr = l) ∧
    (0 < l._sampleCount →
      (l.updateParam lr)._sampleCount = 0 ∧
      (∀ i, i < l._inSize → ∀ j, j < l._outSize →
        ((l.updateParam lr)._w_grad.getD i []).getD j 0 = 0) ∧
      (∀ i, i < l._inSize → ∀ j, j < l._outSize →
        ((l.updateParam lr)._w.getD i []).getD j 0 =
          (l._w.getD i []).getD j 0 -
            lr * (l._w_grad.getD i []).getD j 0 / (l._sampleCount : ℝ))) := by
  constructor
  · intro h
    simp [Layer.updateParam, h]
  · intro h
    have hne : ¬ l._sampleCount = 0 := by omega
    refine ⟨by simp [Layer.updateParam, hne], ?_, ?_⟩
    · intro i hi j hj
      simp only [Layer.updateParam, if_neg hne]
      rw [getD_range_map _ _ _ _ hi, getD_range_map _ _ _ _ hj]
    · intro i hi j hj
      simp only [Layer.updateParam, if_neg hne]
      rw [getD_range_map _ _ _ _ hi, getD_range_map _ _ _ _ hj]
      ring

/-- Claim C8: `Network::calcLoss` returns the categorical cross-entropy
`-Σ_i target[i] * ln(output[i])` over the last layer's stored output. -/
theorem calcLoss_spec (n : Network) (target : List ℝ)
    (_h : target.length = (n._layers.getD (n._layers.length - 1) default)._output.length) :
    n.calcLoss target =
      -(∑ i in Finset.range target.length,
          target.getD i 0 *
            Real.log ((n._layers.getD (n._layers.length - 1) default)._output.getD i 0)) := by
  have := foldl_sub_eq
    (fun i => target.getD i 0 *
      Real.log ((n._layers.getD (n._layers.length - 1) default)._output.getD i 0))
    target.length 0
  simpa [Network.calcLoss] using this

/-- Concrete one-layer network used to instantiate hypotheses. -/
def cLayer8 : Layer :=
  { _inSize := 2, _outSize := 1, _sampleCount := 0, _w := [[1], [1]],
    _w_grad := [[0], [0]], _input := [1, 1], _u := [0], _output := [1],
    _activation := ActivationType.SOFTMAX }

/-- Concrete network wrapping `cLayer8`. -/
def cNet8 : Network := { _verbose := false, _layers := [cLayer8] }

/-- Witness for C8 at the one-layer network `cNet8` and target `[1]`. -/
theorem calcLoss_spec_witness :
    ([(1 : ℝ)].length = (cNet8._layers.getD (cNet8._layers.length - 1) default)._output.length) ∧
    cNet8.calcLoss [1] =
      -(∑ i in Finset.range (List.length [(1 : ℝ)]),
          List.getD [(1 : ℝ)] i 0 *
            Real.log ((cNet8._layers.getD (cNet8._layers.length - 1) default)._output.getD i 0)) :=
  ⟨rfl, calcLoss_spec cNet8 [1] rfl⟩

/-- Claim C7, as amended: on a nonempty input, Softmax returns
`exp x_i / Σ_j exp x_j`, its output sums to 1 and lies in `(0, 1]`, and is
strictly below 1 once the input has at least two entries. -/
theorem softmax_spec (input : List ℝ) (hne : input ≠ []) :
    actActivation ActivationType.SOFTMAX input =
      input.map (fun x => Real.exp x / (input.map Real.exp).sum) ∧
    (actActivation ActivationType.SOFTMAX input).sum = 1 ∧
    (∀ y ∈ actActivation ActivationType.SOFTMAX input, 0 < y ∧ y ≤ 1) ∧
    (2 ≤ input.length → ∀ y ∈ actActivation ActivationType.SOFTMAX input, y < 1) := by
  have hform : actActivation ActivationType.SOFTMAX input =
      (input.map Real.exp).map (fun x => x / (input.map Real.exp).sum) := by
    simp only [actActivation]
    rw [← List.sum_eq_foldl]
  have hS := exp_sum_pos input hne
  refine ⟨?_, ?_, ?_, ?_⟩
  · rw [hform, List.map_map]
    rfl
  · rw [hform, sum_map_div, div_self (ne_of_gt hS)]
  · intro y hy
    rw [hform] at hy
    obtain ⟨z, hz, rfl⟩ := List.mem_map.mp hy
    refine ⟨?_, ?_⟩
    · obtain ⟨x, _, rfl⟩ := List.mem_map.mp hz
      exact div_pos (Real.exp_pos x) hS
    · rw [div_le_one hS]
      refine List.single_le_sum (fun w hw => ?_) _ hz
      obtain ⟨u, _, rfl⟩ := List.mem_map.mp hw
      exact (Real.exp_pos u).le
  · intro hlen y hy
    rw [hform] at hy
    obtain ⟨z, hz, rfl⟩ := List.mem_map.mp hy
    have hzlt : z < (input.map Real.exp).sum := by
      refine mem_lt_sum_of_two (input.map Real.exp) (fun w hw => ?_) (by simpa using hlen) z hz
      obtain ⟨u, _, rfl⟩ := List.mem_map.mp hw
      exact Real.exp_pos u
    rw [div_lt_one hS]
    exact hzlt

/-- Counterexample to C7 as stated: the empty input's output sums to 0, and
on the singleton `[0]` the output is `[1]`, whose element is not strictly
below 1. -/
theorem softmax_claim_counterexample :
    (actActivation ActivationType.SOFTMAX ([] : List ℝ)).sum ≠ 1 ∧
    actActivation ActivationType.SOFTMAX [(0 : ℝ)] = [1] ∧
    ¬ (∀ y ∈ actActivation ActivationType.SOFTMAX [(0 : ℝ)], y < 1) := by
  refine ⟨by simp [actActivation], ?_, ?_⟩
  · simp [actActivation, Real.exp_zero]
  · intro h
    have h1 := h 1 (by simp [actActivation, Real.exp_zero])
    exact lt_irrefl 1 h1

/-- Witness for C7 at the two-element input `[0, 0]`. -/
theorem softmax_spec_witness :
    (([(0 : ℝ), 0] : List ℝ) ≠ []) ∧
    (actActivation ActivationType.SOFTMAX [(0 : ℝ), 0]).sum = 1 :=
  ⟨by simp, (softmax_spec [0, 0] (by simp)).2.1⟩

/-- Every activation variant returns a vector of the input's length. -/
lemma actActivation_length (a : ActivationType) (x : List ℝ) :
    (actActivation a x).length = x.length := by
  cases a <;> simp [actActivation]

/-- Claim C1: `Layer::forward` stores the input augmented with 1 as
`_input`, stores `u[j] = Σ_i augmentedInput[i] * _w[i][j]` as `_u` (a
vector of `_outSize` entries), stores and returns the activation of `u`
as `_output`, and the returned vector has length `_outSize`. -/
theorem layer_forward_spec (l : Layer) (input : List ℝ)
    (hin : input.length + 1 = l._inSize) :
    (l.forward input).2._input = input ++ [1] ∧
    (l.forward input).2._u.length = l._outSize ∧
    (∀ j, j < l._outSize →
      (l.forward input).2._u.getD j 0 =
        ∑ i in Finset.range (input.length + 1),
          (input ++ [1]).getD i 0 * ((l._w.getD i []).getD j 0)) ∧
    (l.forward input).2._output = (l.forward input).1 ∧
    (l.forward input).1 = actActivation l._activation (l.forward input).2._u ∧
    (l.forward input).1.length = l._outSize := by
  refine ⟨rfl, ?_, ?_, rfl, rfl, ?_⟩
  · simp [Layer.forward]
  · intro j hj
    simp only [Layer.forward]
    rw [getD_range_map _ _ _ _ hj, list_sum_range, hin]
  · simp only [Layer.forward]
    rw [actActivation_length]
    simp

/-- Concrete layer used to instantiate the hypotheses of C1. -/
def cLayer1 : Layer :=
  { _inSize := 2, _outSize := 1, _sampleCount := 0, _w := [[1], [1]],
    _w_grad := [[0], [0]], _input := [0, 0], _u := [0], _output := [0],
    _activation := ActivationType.RELU }

/-- Witness for C1 at `cLayer1` and the input `[2]`. -/
theorem layer_forward_spec_witness :
    (List.length [(2 : ℝ)] + 1 = cLayer1._inSize) ∧
    (cLayer1.forward [2]).1.length = cLayer1._outSize :=
  ⟨rfl, (layer_forward_spec cLayer1 [2] rfl).2.2.2.2.2⟩

/-- Claim C3: `Layer::calcDelta` returns a vector of `_outSize` entries
with `delta[j] = gradient(_u)[j] * Σ_k nextDelta[k] * nextW[j][k]`, and
leaves the layer itself unchanged. -/
theorem calcDelta_spec (l : Layer) (nextDelta : List ℝ) (nextW : List (List ℝ))
    (hsz : ∀ j, j < l._outSize → (nextW.getD j []).length = nextDelta.length) :
    (l.calcDelta nextDelta nextW).1.length = l._outSize ∧
    (∀ j, j < l._outSize →
      (l.calcDelta nextDelta nextW).1.getD j 0 =
        (actGradient l._activation l._u).getD j 0 *
          ∑ k in Finset.range nextDelta.length,
            nextDelta.getD k 0 * (nextW.getD j []).getD k 0) ∧
    (l.calcDelta nextDelta nextW).2 = l := by
  refine ⟨by simp [Layer.calcDelta], ?_, rfl⟩
  intro j hj
  simp only [Layer.calcDelta]
  rw [getD_range_map _ _ _ _ hj, list_sum_range, hsz j hj, Finset.mul_sum]
  exact Finset.sum_congr rfl (fun k _ => by ring)

/-- Concrete layer used to instantiate the hypotheses of C3. -/
def cLayer3 : Layer :=
  { _inSize := 2, _outSize := 1, _sampleCount := 0, _w := [[1], [1]],
    _w_grad := [[0], [0]], _input := [1, 1], _u := [1], _output := [1],
    _activation := ActivationType.RELU }

/-- Witness for C3 at `cLayer3`, `nextDelta = [2]`, `nextW = [[3]]`. -/
theorem calcDelta_spec_witness :
    (∀ j, j < cLayer3._outSize →
      (List.getD [[(3 : ℝ)]] j []).length = List.length [(2 : ℝ)]) ∧
    (cLayer3.calcDelta [2] [[3]]).2 = cLayer3 :=
  ⟨by decide, (calcDelta_spec cLayer3 [2] [[3]] (by decide)).2.2⟩

/-- The `Layer::forward` leaves the weight matrix untouched. -/
lemma forward_w (l : Layer) (input : List ℝ) : (l.forward input).2._w = l._w := rfl

/-- The `Layer::updateGrad` leaves the weight matrix untouched. -/
lemma updateGrad_w (l : Layer) (delta : List ℝ) : (l.updateGrad delta)._w = l._w := rfl

/-- State-transformer form of `Network::calcLoss`: the method writes no
member field, so it pairs the loss with the unchanged network. -/
noncomputable def Network.calcLossS (n : Network) (target : List ℝ) : ℝ × Network :=
  (n.calcLoss target, n)

/-- Setting an index of a list to its own value there is the identity. -/
lemma set_self_getD {α : Type} (l : List α) (k : ℕ) (d : α) (hk : k < l.length) :
    l.set k (l.getD k d) = l := by
  induction l generalizing k with
  | nil => simp at hk
  | cons a t ih =>
      cases k with
      | zero => simp
      | succ m =>
          have hm : m < t.length := by simpa using hk
          have hstep : (a :: t).set (m + 1) ((a :: t).getD (m + 1) d)
              = a :: t.set m (t.getD m d) := by
            rw [List.getD_cons_succ]
            rfl
          rw [hstep, ih m hm]

/-- Replacing a layer by its own `updateGrad` image keeps every weight
matrix in place. -/
lemma set_updateGrad_map_w (layers : List Layer) (k : ℕ) (d : List ℝ) :
    (layers.set k ((layers.getD k default).updateGrad d)).map (fun x => x._w)
      = layers.map (fun x => x._w) := by
  rcases Nat.lt_or_ge k layers.length with hk | hk
  · rw [List.map_set, updateGrad_w]
    have hw : (layers.getD k default)._w = (layers.map (fun x => x._w)).getD k [] := by
      rw [List.getD_eq_getElem?_getD, List.getD_eq_getElem?_getD, List.getElem?_map,
        List.getElem?_eq_getElem hk]
      rfl
    rw [hw]
    exact set_self_getD _ k [] (by simpa using hk)
  · rw [List.set_eq_of_length_le hk]

/-- The fold inside `Network::forward` keeps every layer's weights. -/
lemma networkForward_map_w_aux : ∀ (layers : List Layer) (buf : List ℝ) (acc : List Layer),
    ((layers.foldl
      (fun (p : List ℝ × List Layer) layer =>
        ((layer.forward p.1).1, p.2 ++ [(layer.forward p.1).2]))
      (buf, acc)).2).map (fun x => x._w)
      = acc.map (fun x => x._w) ++ layers.map (fun x => x._w) := by
  intro layers
  induction layers with
  | nil => intro buf acc; simp
  | cons a t ih =>
      intro buf acc
      rw [List.foldl_cons, ih]
      simp [forward_w]

/-- The descending loop of `Network::backward` keeps every layer's
weights. -/
lemma backwardAux_map_w (fuel : ℕ) : ∀ (layers : List Layer) (d : List ℝ),
    ((backwardAux layers d fuel).1).map (fun x => x._w) = layers.map (fun x => x._w) := by
  induction fuel with
  | zero => intro layers d; rfl
  | succ k ih =>
      intro layers d
      simp only [backwardAux]
      rw [ih]
      exact set_updateGrad_map_w layers k _

/-- Claim C9: among the modelled operations only `updateParam` touches
weights — `Layer::forward`, `Layer::calcDelta`, `Layer::updateGrad`,
`Network::forward`, `Network::backward` and `Network::calcLoss` all leave
every weight matrix unchanged. -/
theorem weights_frame (l : Layer) (input nextDelta delta target : List ℝ)
    (nextW : List (List ℝ)) (n : Network) :
    (l.forward input).2._w = l._w ∧
    (l.calcDelta nextDelta nextW).2._w = l._w ∧
    (l.updateGrad delta)._w = l._w ∧
    ((n.forward input).2)._layers.map (fun x => x._w) = n._layers.map (fun x => x._w) ∧
    ((n.backward target))._layers.map (fun x => x._w) = n._layers.map (fun x => x._w) ∧
    (n.calcLossS target).2._layers.map (fun x => x._w) = n._layers.map (fun x => x._w) := by
  refine ⟨rfl, rfl, rfl, ?_, ?_, rfl⟩
  · simp only [Network.forward]
    rw [networkForward_map_w_aux]
    rfl
  · simp only [Network.backward]
    rw [backwardAux_map_w]
    exact set_updateGrad_map_w n._layers (n._layers.length - 1) _

/-- Layer state with one already accumulated sample (`_sampleCount = 1`,
zero accumulator): a state reachable by one `updateGrad` with a zero
delta. -/
def cLayer6a : Layer :=
  { _inSize := 2, _outSize := 1, _sampleCount := 1, _w := [[0], [0]],
    _w_grad := [[0], [0]], _input := [1, 1], _u := [0], _output := [0],
    _activation := ActivationType.RELU }

/-- Fresh layer state: zero accumulator and `_sampleCount = 0`. -/
def cLayer6b : Layer :=
  { _inSize := 2, _outSize := 1, _sampleCount := 0, _w := [[0], [0]],
    _w_grad := [[0], [0]], _input := [1, 1], _u := [0], _output := [0],
    _activation := ActivationType.RELU }

/-- Counterexample to C6 as stated: starting from `cLayer6a` (a state
with one sample already counted), two identical `updateGrad` calls
followed by `updateParam 1` give weights `-2/3`, while a single call
followed by `updateParam 1` gives `-1/2`. -/
theorem updateGrad_batch_counterexample :
    ¬ ((((cLayer6a.updateGrad [1]).updateGrad [1]).updateParam 1)._w
        = ((cLayer6a.updateGrad [1]).updateParam 1)._w) := by
  have h2 : (((cLayer6a.updateGrad [1]).updateGrad [1]).updateParam 1)._w
      = [[-(2 / 3 : ℝ)], [-(2 / 3 : ℝ)]] := by
    norm_num [cLayer6a, Layer.updateGrad, Layer.updateParam, List.range_succ]
  have h1 : ((cLayer6a.updateGrad [1]).updateParam 1)._w
      = [[-(1 / 2 : ℝ)], [-(1 / 2 : ℝ)]] := by
    norm_num [cLayer6a, Layer.updateGrad, Layer.updateParam, List.range_succ]
  rw [h2, h1]
  intro h
  have := List.head_eq_of_cons_eq h
  simp at this
  norm_num at this

/-- One `updateGrad` call: sizes, input and weights are untouched, the
count goes up by one, and each in-range accumulator entry gains
`input[i] * delta[j]`. -/
lemma updateGrad_fields (y : Layer) (delta : List ℝ) :
    (y.updateGrad delta)._inSize = y._inSize ∧
    (y.updateGrad delta)._outSize = y._outSize ∧
    (y.updateGrad delta)._input = y._input ∧
    (y.updateGrad delta)._w = y._w ∧
    (y.updateGrad delta)._sampleCount = y._sampleCount + 1 ∧
    (∀ i, i < y._inSize → ∀ j, j < y._outSize →
      ((y.updateGrad delta)._w_grad.getD i []).getD j 0
        = (y._w_grad.getD i []).getD j 0 + y._input.getD i 0 * delta.getD j 0) := by
  refine ⟨rfl, rfl, rfl, rfl, rfl, ?_⟩
  intro i hi j hj
  simp only [Layer.updateGrad]
  rw [getD_range_map _ _ _ _ hi, getD_range_map _ _ _ _ hj]

/-- Iterating `updateGrad` with a fixed delta leaves sizes, stored input
and weights alone, adds the iteration count to `_sampleCount`, and adds
`k * input[i] * delta[j]` to each accumulator entry. -/
lemma updateGrad_iterate_fields (l : Layer) (delta : List ℝ) : ∀ k : ℕ,
    ((fun x => Layer.updateGrad x delta)^[k] l)._inSize = l._inSize ∧
    ((fun x => Layer.updateGrad x delta)^[k] l)._outSize = l._outSize ∧
    ((fun x => Layer.updateGrad x delta)^[k] l)._input = l._input ∧
    ((fun x => Layer.updateGrad x delta)^[k] l)._w = l._w ∧
    ((fun x => Layer.updateGrad x delta)^[k] l)._sampleCount = l._sampleCount + k ∧
    (∀ i, i < l._inSize → ∀ j, j < l._outSize →
      ((((fun x => Layer.updateGrad x delta)^[k] l)._w_grad.getD i []).getD j 0)
        = (l._w_grad.getD i []).getD j 0 + (k : ℝ) * (l._input.getD i 0 * delta.getD j 0)) := by
  intro k
  induction k with
  | zero => simp
  | succ m ih =>
      obtain ⟨h1, h2, h3, h4, h5, h6⟩ := ih
      obtain ⟨g1, g2, g3, g4, g5, g6⟩ :=
        updateGrad_fields ((fun x => Layer.updateGrad x delta)^[m] l) delta
      rw [Function.iterate_succ_apply']
      refine ⟨by rw [g1, h1], by rw [g2, h2], by rw [g3, h3], by rw [g4, h4],
        by rw [g5, h5]; omega, ?_⟩
      intro i hi j hj
      rw [g6 i (h1.symm ▸ hi) j (h2.symm ▸ hj), h6 i hi j hj, h3]
      push_cast
      ring

/-- Claim C6, as amended: starting from a layer with a zero gradient
accumulator and `_sampleCount = 0`, `N ≥ 1` identical `updateGrad` calls
followed by `updateParam` yield the same weights as a single call
followed by `updateParam`. -/
theorem updateGrad_batch_spec (l : Layer) (delta : List ℝ) (lr : ℝ) (N : ℕ)
    (hN : 1 ≤ N) (hc : l._sampleCount = 0)
    (hg : ∀ i, i < l._inSize → ∀ j, j < l._outSize →
      (l._w_grad.getD i []).getD j 0 = 0) :
    (((fun x => Layer.updateGrad x delta)^[N] l).updateParam lr)._w
      = ((l.updateGrad delta).updateParam lr)._w := by
  have hone : l.updateGrad delta = (fun x => Layer.updateGrad x delta)^[1] l := rfl
  rw [hone]
  obtain ⟨hN1, hN2, _, hN4, hN5, hN6⟩ := updateGrad_iterate_fields l delta N
  obtain ⟨h11, h12, _, h14, h15, h16⟩ := updateGrad_iterate_fields l delta 1
  have hcN : ((fun x => Layer.updateGrad x delta)^[N] l)._sampleCount = N := by
    rw [hN5, hc, Nat.zero_add]
  have hc1 : ((fun x => Layer.updateGrad x delta)^[1] l)._sampleCount = 1 := by
    rw [h15, hc, Nat.zero_add]
  have hNne : (N : ℝ) ≠ 0 := Nat.cast_ne_zero.mpr (by omega)
  simp only [Layer.updateParam, hcN, hc1]
  rw [if_neg (by omega : ¬ N = 0), if_neg (by omega : ¬ (1 : ℕ) = 0)]
  simp only [hN1, hN2, h11, h12]
  refine List.map_congr_left (fun i hi => ?_)
  have hi2 : i < l._inSize := List.mem_range.mp hi
  refine List.map_congr_left (fun j hj => ?_)
  have hj2 : j < l._outSize := List.mem_range.mp hj
  rw [hN4, h14, hN6 i hi2 j hj2, h16 i hi2 j hj2, hg i hi2 j hj2]
  push_cast
  field_simp
  ring

/-- Witness for C6 at the fresh layer `cLayer6b`, `delta = [1]`,
`lr = 1`, `N = 2`. -/
theorem updateGrad_batch_spec_witness :
    (1 ≤ 2) ∧
    (((fun x => Layer.updateGrad x [1])^[2] cLayer6b).updateParam 1)._w
      = ((cLayer6b.updateGrad [1]).updateParam 1)._w :=
  ⟨by decide, updateGrad_batch_spec cLayer6b [1] 1 2 (by decide) rfl
    (by
      intro i hi j hj
      simp only [cLayer6b] at hi hj
      interval_cases i <;> interval_cases j <;> simp [cLayer6b])⟩

/-- Reading a set list away from the written index. -/
lemma getD_set_ne {α : Type} (l : List α) (k i : ℕ) (v d : α) (h : k ≠ i) :
    (l.set k v).getD i d = l.getD i d := by
  rw [List.getD_eq_getElem?_getD, List.getD_eq_getElem?_getD, List.getElem?_set_ne h]

/-- Reading a set list at the written index. -/
lemma getD_set_self {α : Type} (l : List α) (k : ℕ) (v d : α) (hk : k < l.length) :
    (l.set k v).getD k d = v := by
  rw [List.getD_eq_getElem?_getD, List.getElem?_set_self hk]
  rfl

/-- The delta vectors of one `Network::backward` call, indexed by distance
from the last layer: distance 0 is the output delta `y - target`; at
distance `m + 1` the layer `length - 1 - (m + 1)` computes `calcDelta`
from the previous delta and the following layer's weights. -/
noncomputable def backDelta (layers : List Layer) (target : List ℝ) : ℕ → List ℝ
  | 0 => outputDelta ((layers.getD (layers.length - 1) default)._output) target
  | m + 1 =>
      ((layers.getD (layers.length - 1 - (m + 1)) default).calcDelta
        (backDelta layers target m)
        ((layers.getD (layers.length - 1 - m) default)._w)).1

/-- The descending loop preserves the layer count. -/
lemma backwardAux_length (fuel : ℕ) : ∀ (layers : List Layer) (d : List ℝ),
    (backwardAux layers d fuel).1.length = layers.length := by
  induction fuel with
  | zero => intro layers d; rfl
  | succ k ih =>
      intro layers d
      simp only [backwardAux]
      rw [ih, List.length_set]

/-- Characterisation of the descending loop of `Network::backward`:
entering with fuel `f < length` and the delta of distance
`length - 1 - f`, with all layers at index `≥ f` already updated and all
below untouched, it ends with every layer `i` equal to the original
layer updated once with its own delta. -/
lemma backwardAux_getD (orig : List Layer) (target : List ℝ) : ∀ (fuel : ℕ),
    fuel < orig.length →
    ∀ (layers : List Layer), layers.length = orig.length →
    (∀ i, i < fuel → layers.getD i default = orig.getD i default) →
    (∀ i, fuel ≤ i → i < orig.length →
      layers.getD i default =
        (orig.getD i default).updateGrad (backDelta orig target (orig.length - 1 - i))) →
    ∀ i, i < orig.length →
      (backwardAux layers (backDelta orig target (orig.length - 1 - fuel)) fuel).1.getD i default
        = (orig.getD i default).updateGrad (backDelta orig target (orig.length - 1 - i)) := by
  intro fuel
  induction fuel with
  | zero =>
      intro _ layers _ _ hhigh i hi
      exact hhigh i (Nat.zero_le i) hi
  | succ k ih =>
      intro hf layers hlen hlow hhigh i hi
      have hk_lt : k < orig.length := by omega
      have hli : layers.getD k default = orig.getD k default := hlow k (by omega)
      have hnw : (layers.getD (k + 1) default)._w = (orig.getD (k + 1) default)._w := by
        rw [hhigh (k + 1) (by omega) hf, updateGrad_w]
      have hunfold : ∀ m : ℕ, backDelta orig target (m + 1) =
          ((orig.getD (orig.length - 1 - (m + 1)) default).calcDelta
            (backDelta orig target m)
            ((orig.getD (orig.length - 1 - m) default)._w)).1 := fun m => rfl
      have hdelta : ((layers.getD k default).calcDelta
          (backDelta orig target (orig.length - 1 - (k + 1)))
          ((layers.getD (k + 1) default)._w)).1
          = backDelta orig target (orig.length - 1 - k) := by
        have hm : orig.length - 1 - k = (orig.length - 1 - (k + 1)) + 1 := by omega
        rw [hm, hunfold]
        have e1 : orig.length - 1 - ((orig.length - 1 - (k + 1)) + 1) = k := by omega
        have e2 : orig.length - 1 - (orig.length - 1 - (k + 1)) = k + 1 := by omega
        rw [e1, e2, hli, hnw]
      simp only [backwardAux]
      rw [hdelta]
      refine ih (by omega) (layers.set k ((layers.getD k default).updateGrad
        (backDelta orig target (orig.length - 1 - k))))
        (by rw [List.length_set]; exact hlen) ?_ ?_ i hi
      · intro i2 hi2
        rw [getD_set_ne _ _ _ _ _ (by omega)]
        exact hlow i2 (by omega)
      · intro i2 hi2a hi2b
        rcases Nat.eq_or_lt_of_le hi2a with heq | hlt
        · subst heq
          rw [getD_set_self _ _ _ _ (by omega), hli]
        · rw [getD_set_ne _ _ _ _ _ (by omega)]
          exact hhigh i2 (by omega) hi2b

/-- Claim C2: `Network::backward` computes the output delta as
`lastOutput[i] - target[i]`, updates the last layer's gradient with it,
then walks second-to-last down to first, each layer's delta coming from
`calcDelta` on the just-computed delta and the following layer's weights;
every layer ends updated by exactly one `updateGrad` call, its sample
count incremented by one. -/
theorem network_backward_spec (n : Network) (target : List ℝ)
    (hL : 1 ≤ n._layers.length)
    (ht : target.length = (n._layers.getD (n._layers.length - 1) default)._output.length) :
    (n.backward target)._layers.length = n._layers.length ∧
    (∀ i, i < target.length →
      (backDelta n._layers target 0).getD i 0 =
        ((n._layers.getD (n._layers.length - 1) default)._output).getD i 0 - target.getD i 0) ∧
    (∀ l, l < n._layers.length →
      (n.backward target)._layers.getD l default =
        (n._layers.getD l default).updateGrad
          (backDelta n._layers target (n._layers.length - 1 - l))) ∧
    (∀ l, l < n._layers.length →
      ((n.backward target)._layers.getD l default)._sampleCount =
        (n._layers.getD l default)._sampleCount + 1) := by
  have hmain : ∀ l, l < n._layers.length →
      (n.backward target)._layers.getD l default =
        (n._layers.getD l default).updateGrad
          (backDelta n._layers target (n._layers.length - 1 - l)) := by
    intro l hl
    show ((backwardAux
      (n._layers.set (n._layers.length - 1)
        ((n._layers.getD (n._layers.length - 1) default).updateGrad
          (outputDelta ((n._layers.getD (n._layers.length - 1) default)._output) target)))
      (outputDelta ((n._layers.getD (n._layers.length - 1) default)._output) target)
      (n._layers.length - 1)).1).getD l default = _
    have hod : outputDelta ((n._layers.getD (n._layers.length - 1) default)._output) target
        = backDelta n._layers target
            (n._layers.length - 1 - (n._layers.length - 1)) := by
      rw [Nat.sub_self]
      rfl
    rw [hod]
    refine backwardAux_getD n._layers target (n._layers.length - 1) (by omega) _
      (by rw [List.length_set]) ?_ ?_ l hl
    · intro i hi
      exact getD_set_ne _ _ _ _ _ (by omega)
    · intro i hi1 hi2
      have hieq : i = n._layers.length - 1 := by omega
      subst hieq
      rw [getD_set_self _ _ _ _ (by omega)]
  refine ⟨?_, ?_, hmain, ?_⟩
  · show (backwardAux _ _ (n._layers.length - 1)).1.length = n._layers.length
    rw [backwardAux_length, List.length_set]
  · intro i hi
    show (outputDelta ((n._layers.getD (n._layers.length - 1) default)._output) target).getD i 0 = _
    simp only [outputDelta]
    rw [getD_range_map _ _ _ _ hi, if_pos (ht ▸ hi)]
  · intro l hl
    rw [hmain l hl]
    rfl

/-- Concrete layer whose stored output feeds the C2 witness. -/
def cLayer2 : Layer :=
  { _inSize := 2, _outSize := 1, _sampleCount := 0, _w := [[1], [1]],
    _w_grad := [[0], [0]], _input := [1, 1], _u := [1], _output := [1],
    _activation := ActivationType.SOFTMAX }

/-- Concrete one-layer network for the C2 witness. -/
def cNet2 : Network := { _verbose := false, _layers := [cLayer2] }

/-- Witness for C2 at the one-layer network `cNet2` and target `[0]`. -/
theorem network_backward_spec_witness :
    (1 ≤ cNet2._layers.length) ∧
    (cNet2.backward [0])._layers.length = cNet2._layers.length :=
  ⟨by decide, (network_backward_spec cNet2 [0] (by decide) rfl).1⟩

end NeuralNet
